import Mathlib

/-!
Verification of the uk-politics module core: the Location wildcard-filter
model (src/uk_politics/location.py), the party-name resolver
(src/uk_politics/names.py), the color resolver (src/uk_politics/colors.py)
and the election aggregator (src/uk_politics/elections.py).

Python strings are embedded as lists of characters (`PyStr`); the external
data tables (party_nicknames.csv, party_colors.csv, GE_results.tsv) and the
fuzzywuzzy matcher are external collaborators of the core and appear as
parameters (association lists, an abstract best-match function).
-/

namespace UkPolitics

/-- Python strings, embedded as lists of characters. -/
abbrev PyStr := List Char

/-- Coerce a Lean string literal to the embedding's string type. -/
def py (s : String) : PyStr := s.data

/-- Lowercase one character: ASCII uppercase maps down by 32, everything else
is unchanged (models Python str.lower on the ASCII range used by the data). -/
def pyLowerChar (c : Char) : Char := c.toLower

/-- Python str.lower, characterwise. -/
def pyLower (s : PyStr) : PyStr := s.map pyLowerChar

/-- Whitespace test used by Python str.strip (ASCII whitespace:
space, tab, newline, carriage return, vertical tab, form feed). -/
def pyIsSpace (c : Char) : Bool :=
  c.toNat = 32 || c.toNat = 9 || c.toNat = 10 || c.toNat = 13 ||
    c.toNat = 11 || c.toNat = 12

/-- Python str.strip: drop whitespace from both ends. -/
def pyStrip (s : PyStr) : PyStr :=
  ((s.dropWhile pyIsSpace).reverse.dropWhile pyIsSpace).reverse

/-- Python str.split(sep) for a one-character separator.  Splitting the empty
string yields one empty field, as in Python. -/
def splitOnChar (sep : Char) : PyStr → List PyStr
  | [] => [[]]
  | c :: rest =>
    let r := splitOnChar sep rest
    if c = sep then [] :: r
    else
      match r with
      | [] => [[c]]
      | h :: t => (c :: h) :: t

/-- Python sep.join(parts) for a one-character separator. -/
def joinChar (sep : Char) : List PyStr → PyStr
  | [] => []
  | [p] => p
  | p :: rest => p ++ sep :: joinChar sep rest

theorem splitOnChar_ne_nil (sep : Char) (s : PyStr) : splitOnChar sep s ≠ [] := by
  induction s with
  | nil => simp [splitOnChar]
  | cons c rest ih =>
    simp only [splitOnChar]
    split
    · simp
    · cases h : splitOnChar sep rest with
      | nil => simp
      | cons a t => simp

theorem splitOnChar_sepFree (sep : Char) (s : PyStr) (h : sep ∉ s) :
    splitOnChar sep s = [s] := by
  induction s with
  | nil => rfl
  | cons c rest ih =>
    simp only [List.mem_cons, not_or] at h
    simp only [splitOnChar]
    rw [if_neg (fun hc => h.1 hc.symm), ih h.2]

theorem splitOnChar_append_sep (sep : Char) (p t : PyStr) (h : sep ∉ p) :
    splitOnChar sep (p ++ sep :: t) = p :: splitOnChar sep t := by
  induction p with
  | nil => simp [splitOnChar]
  | cons c rest ih =>
    simp only [List.mem_cons, not_or] at h
    simp only [List.cons_append, splitOnChar]
    rw [if_neg (fun hc => h.1 hc.symm), List.append_eq, ih h.2]

/-- Splitting is a left inverse of joining, provided the separator occurs in
no part. -/
theorem splitOnChar_joinChar (sep : Char) (parts : List PyStr)
    (hne : parts ≠ []) (hfree : ∀ p ∈ parts, sep ∉ p) :
    splitOnChar sep (joinChar sep parts) = parts := by
  induction parts with
  | nil => exact absurd rfl hne
  | cons p rest ih =>
    cases rest with
    | nil =>
      simp only [joinChar]
      exact splitOnChar_sepFree sep p (hfree p (by simp))
    | cons q rest2 =>
      have hjoin : joinChar sep (p :: q :: rest2) = p ++ sep :: joinChar sep (q :: rest2) := rfl
      rw [hjoin, splitOnChar_append_sep sep p _ (hfree p (by simp))]
      rw [ih (by simp) (fun x hx => hfree x (List.mem_cons_of_mem p hx))]

theorem toNat_ofNat_small (n : Nat) (h : n < 55296) : (Char.ofNat n).toNat = n := by
  have hv : n.isValidChar := Or.inl h
  rw [Char.ofNat, dif_pos hv]
  rfl

/-- Lowercasing a character neither creates nor destroys whitespace. -/
theorem pyIsSpace_pyLowerChar (c : Char) : pyIsSpace (pyLowerChar c) = pyIsSpace c := by
  unfold pyLowerChar Char.toLower
  by_cases h : 65 ≤ c.toNat ∧ c.toNat ≤ 90
  · rw [if_pos h]
    have h32 : (Char.ofNat (c.toNat + 32)).toNat = c.toNat + 32 :=
      toNat_ofNat_small _ (by omega)
    unfold pyIsSpace
    rw [h32]
    have : ¬ (c.toNat + 32 = 32 || c.toNat + 32 = 9 || c.toNat + 32 = 10 ||
        c.toNat + 32 = 13 || c.toNat + 32 = 11 || c.toNat + 32 = 12) = true := by
      simp only [Bool.or_eq_true, decide_eq_true_eq]
      omega
    have hc : ¬ (c.toNat = 32 || c.toNat = 9 || c.toNat = 10 ||
        c.toNat = 13 || c.toNat = 11 || c.toNat = 12) = true := by
      simp only [Bool.or_eq_true, decide_eq_true_eq]
      omega
    rw [Bool.eq_false_iff.mpr this, Bool.eq_false_iff.mpr hc]
  · rw [if_neg h]

theorem pyStrip_pyLower (s : PyStr) : pyStrip (pyLower s) = pyLower (pyStrip s) := by
  have hcomp : (pyIsSpace ∘ pyLowerChar) = pyIsSpace := by
    funext c
    exact pyIsSpace_pyLowerChar c
  unfold pyStrip pyLower
  rw [List.dropWhile_map, hcomp, ← List.map_reverse, List.dropWhile_map, hcomp,
    ← List.map_reverse]

theorem pyStrip_pyLower_empty (s : PyStr) (h : pyStrip s = []) :
    pyStrip (pyLower s) = [] := by
  rw [pyStrip_pyLower, h]
  rfl

/-- Fuel-based digit extraction (structural recursion so the kernel can
evaluate it on concrete inputs). -/
def natToCharsAux : Nat → Nat → PyStr → PyStr
  | 0, _, acc => acc
  | fuel + 1, n, acc =>
    let d := Nat.digitChar (n % 10)
    if n / 10 = 0 then d :: acc else natToCharsAux fuel (n / 10) (d :: acc)

/-- Decimal rendering of a natural number (the digits of Python str(n)). -/
def natToChars (n : Nat) : PyStr :=
  if n = 0 then [Char.ofNat 48] else natToCharsAux n n []

theorem natToCharsAux_eq_digits (n : Nat) : ∀ fuel acc, 0 < n → n ≤ fuel →
    natToCharsAux fuel n acc = ((Nat.digits 10 n).map Nat.digitChar).reverse ++ acc := by
  induction n using Nat.strong_induction_on with
  | _ n ih =>
    intro fuel acc hpos hfuel
    cases fuel with
    | zero => omega
    | succ f =>
      rw [Nat.digits_def' (b := 10) (by norm_num) hpos]
      simp only [natToCharsAux, List.map_cons, List.reverse_cons]
      by_cases hq : n / 10 = 0
      · rw [if_pos hq, hq]
        simp [Nat.digits]
      · rw [if_neg hq]
        rw [ih (n / 10) (by omega) f (Nat.digitChar (n % 10) :: acc) (by omega) (by omega)]
        simp

/-- The fuel-based rendering agrees with the Nat.digits specification. -/
theorem natToChars_eq_digits (n : Nat) :
    natToChars n =
      if n = 0 then [Char.ofNat 48] else ((Nat.digits 10 n).map Nat.digitChar).reverse := by
  unfold natToChars
  by_cases h0 : n = 0
  · rw [if_pos h0, if_pos h0]
  · rw [if_neg h0, if_neg h0, natToCharsAux_eq_digits n n [] (by omega) (by omega)]
    simp

/-- Numeric value of one decimal digit character. -/
def digitVal (c : Char) : Nat := c.toNat - 48

/-- Parse a nonempty all-digit string as a natural number (the digit-reading
core of Python int()). -/
def parseNatDigits (s : PyStr) : Option Nat :=
  if s.isEmpty || !(s.all Char.isDigit) then none
  else some (s.foldl (fun a c => 10 * a + digitVal c) 0)

/-- Python str for integers: an optional minus sign followed by digits. -/
def pyIntRepr (i : Int) : PyStr :=
  if i < 0 then Char.ofNat 45 :: natToChars i.natAbs else natToChars i.natAbs

/-- Python int() on a field string: optional minus sign followed by digits
(models int() on the canonical integer strings this module produces;
failure, modelling ValueError, is none). -/
def pyParseInt : PyStr → Option Int
  | [] => none
  | c :: rest =>
    if c = Char.ofNat 45 then
      match parseNatDigits rest with
      | none => none
      | some n => some (-(n : Int))
    else
      match parseNatDigits (c :: rest) with
      | none => none
      | some n => some ((n : Int))

theorem digitChar_isDigit (d : Nat) (h : d < 10) : (Nat.digitChar d).isDigit = true := by
  interval_cases d <;> decide

theorem digitVal_digitChar (d : Nat) (h : d < 10) : digitVal (Nat.digitChar d) = d := by
  interval_cases d <;> decide

theorem mem_natToChars_isDigit (n : Nat) (c : Char) (h : c ∈ natToChars n) :
    c.isDigit = true := by
  rw [natToChars_eq_digits] at h
  split at h
  · simp only [List.mem_singleton] at h
    subst h
    decide
  · rw [List.mem_reverse, List.mem_map] at h
    obtain ⟨d, hd, rfl⟩ := h
    exact digitChar_isDigit d (Nat.digits_lt_base (by norm_num) hd)

theorem natToChars_ne_nil (n : Nat) : natToChars n ≠ [] := by
  rw [natToChars_eq_digits]
  split
  · simp
  · simp only [ne_eq, List.reverse_eq_nil_iff, List.map_eq_nil_iff]
    exact Nat.digits_ne_nil_iff_ne_zero.mpr (by assumption)

theorem ofDigits_eq_foldr (b : Nat) (L : List Nat) :
    Nat.ofDigits b L = L.foldr (fun d r => d + b * r) 0 := by
  induction L with
  | nil => simp [Nat.ofDigits]
  | cons d t ih => simp [Nat.ofDigits, ih]

theorem foldr_digitChar_eq (L : List Nat) (hlt : ∀ d ∈ L, d < 10) :
    L.foldr (fun x y => 10 * y + digitVal (Nat.digitChar x)) 0 =
    L.foldr (fun d r => d + 10 * r) 0 := by
  induction L with
  | nil => rfl
  | cons d t ih =>
    simp only [List.foldr_cons]
    rw [ih (fun x hx => hlt x (List.mem_cons_of_mem _ hx)),
      digitVal_digitChar d (hlt d (List.mem_cons_self _ _))]
    omega

theorem parseNatDigits_natToChars (n : Nat) : parseNatDigits (natToChars n) = some n := by
  unfold parseNatDigits
  have hdig : (natToChars n).all Char.isDigit = true :=
    List.all_eq_true.mpr (fun c hc => mem_natToChars_isDigit n c hc)
  have hne : (natToChars n).isEmpty = false := by
    cases h : natToChars n with
    | nil => exact absurd h (natToChars_ne_nil n)
    | cons a t => rfl
  have hcond : ¬ (((natToChars n).isEmpty || !((natToChars n).all Char.isDigit)) = true) := by
    rw [hne, hdig]
    decide
  rw [if_neg hcond]
  simp only [Option.some.injEq]
  by_cases h0 : n = 0
  · subst h0
    rfl
  · rw [natToChars_eq_digits, if_neg h0, List.foldl_reverse, List.foldr_map]
    have hlt : ∀ d ∈ Nat.digits 10 n, d < 10 :=
      fun d hd => Nat.digits_lt_base (by norm_num) hd
    rw [foldr_digitChar_eq _ hlt, ← ofDigits_eq_foldr, Nat.ofDigits_digits]

theorem natToChars_head_not_minus (n : Nat) (c : Char) (rest : PyStr)
    (h : natToChars n = c :: rest) : ¬ c = Char.ofNat 45 := by
  intro hc
  have hmem : c ∈ natToChars n := by
    rw [h]
    exact List.mem_cons_self _ _
  have := mem_natToChars_isDigit n c hmem
  subst hc
  simp [Char.isDigit] at this

/-- Parsing is a left inverse of integer rendering. -/
theorem pyParseInt_pyIntRepr (i : Int) : pyParseInt (pyIntRepr i) = some i := by
  unfold pyIntRepr
  by_cases h : i < 0
  · rw [if_pos h]
    simp only [pyParseInt, if_true]
    rw [parseNatDigits_natToChars]
    simp only [Option.some.injEq]
    omega
  · rw [if_neg h]
    cases hc : natToChars i.natAbs with
    | nil => exact absurd hc (natToChars_ne_nil _)
    | cons c rest =>
      simp only [pyParseInt]
      rw [if_neg (natToChars_head_not_minus _ c rest hc), ← hc,
        parseNatDigits_natToChars]
      simp only [Option.some.injEq]
      omega

theorem pipe_not_mem_pyIntRepr (i : Int) : Char.ofNat 124 ∉ pyIntRepr i := by
  intro hmem
  unfold pyIntRepr at hmem
  have hbar : (Char.ofNat 124).isDigit = false := by decide
  split at hmem
  · rcases List.mem_cons.mp hmem with h | h
    · exact absurd h (by decide)
    · rw [mem_natToChars_isDigit _ _ h] at hbar
      exact Bool.noConfusion hbar
  · rw [mem_natToChars_isDigit _ _ hmem] at hbar
    exact Bool.noConfusion hbar

theorem pyIntRepr_ne_star (i : Int) : pyIntRepr i ≠ [Char.ofNat 42] := by
  intro h
  have hmem : Char.ofNat 42 ∈ pyIntRepr i := by
    rw [h]
    exact List.mem_cons_self _ _
  have hstar : (Char.ofNat 42).isDigit = false := by decide
  unfold pyIntRepr at hmem
  split at hmem
  · rcases List.mem_cons.mp hmem with hm | hm
    · exact absurd hm (by decide)
    · rw [mem_natToChars_isDigit _ _ hm] at hstar
      exact Bool.noConfusion hstar
  · rw [mem_natToChars_isDigit _ _ hmem] at hstar
    exact Bool.noConfusion hstar

/-- Location specification, src/uk_politics/location.py.  The six optional
fields act as wildcards when none; field order follows the constructor. -/
structure Location where
  ons_id : Option PyStr
  constituency : Option PyStr
  county : Option PyStr
  region : Option PyStr
  country : Option PyStr
  electorate : Option Int
deriving DecidableEq

/-- Fully wildcarded filter, Location() in Python. -/
def locationWildcard : Location := ⟨none, none, none, none, none, none⟩

/-- The helper _wildcard_if_none, at string fields: none renders as "*",
a string renders as itself (str is the identity on str). -/
def wildcardIfNoneStr (x : Option PyStr) : PyStr :=
  match x with
  | none => [Char.ofNat 42]
  | some s => s

/-- The helper _wildcard_if_none, at the integer field: none renders as "*",
an int renders via str(int). -/
def wildcardIfNoneInt (x : Option Int) : PyStr :=
  match x with
  | none => [Char.ofNat 42]
  | some i => pyIntRepr i

/-- Location._string_properties_list: the five string-valued properties, in
comparison order. -/
def Location.stringPropertiesList (l : Location) : List (Option PyStr) :=
  [l.ons_id, l.constituency, l.county, l.region, l.country]

/-- The six rendered fields joined by Location.__repr__ (before joining). -/
def Location.reprComponents (l : Location) : List PyStr :=
  l.stringPropertiesList.map wildcardIfNoneStr ++ [wildcardIfNoneInt l.electorate]

/-- Location.__repr__: the rendered fields joined with "|". -/
def Location.reprPy (l : Location) : PyStr := joinChar (Char.ofNat 124) l.reprComponents

/-- Location._contains_loc_as_raw_string: split the raw string on "|" and
require every non-wildcard string property to agree case-insensitively with
the field at its index.  (Python indexes the split list positionally; the
zip is equivalent because the raw strings compared against are reprs, whose
split always has at least as many fields as there are string properties.) -/
def Location.containsLocAsRawString (l : Location) (raw : PyStr) : Bool :=
  let stringProperties := splitOnChar (Char.ofNat 124) raw
  (l.stringPropertiesList.zip stringProperties).all fun pv =>
    match pv.1 with
    | none => true
    | some p => pyLower p == pyLower pv.2

/-- Location.__ge__: self is at least as general as other. -/
def Location.ge (a b : Location) : Bool := a.containsLocAsRawString b.reprPy

/-- Location.__le__: delegates to __ge__ with the sides swapped. -/
def Location.le (a b : Location) : Bool := Location.ge b a

/-- Location.__eq__: equality of the canonical string encodings. -/
def Location.pyEq (a b : Location) : Bool := a.reprPy == b.reprPy

/-- A hash of a string; the exact mixing is irrelevant, only that the hash
is a function of the string (Python hashes Locations as hash(repr(self))). -/
def strHash (s : PyStr) : Nat := s.foldl (fun h c => h * 1000003 + c.toNat) 5381

/-- Location.__hash__: hash of the canonical string encoding. -/
def Location.pyHash (l : Location) : Nat := strHash l.reprPy

/-- The function from_raw_string: split a "|"-separated string, turn "*"
into none, parse the sixth field as an int.  Python raises IndexError when
fewer than six fields arrive and ValueError when int() fails; both are
modelled as none. -/
def from_raw_string (raw : PyStr) : Option Location :=
  let split := (splitOnChar (Char.ofNat 124) raw).map
    (fun s => if s = [Char.ofNat 42] then none else some s)
  match split with
  | s0 :: s1 :: s2 :: s3 :: s4 :: s5 :: _ =>
    match s5 with
    | none => some ⟨s0, s1, s2, s3, s4, none⟩
    | some e =>
      match pyParseInt e with
      | none => none
      | some n => some ⟨s0, s1, s2, s3, s4, some n⟩
  | _ => none

/-- Hypothesis that the five string fields of a location contain no "|"
character (true of every location the data files produce).  Stated as a
boolean check so it is decidable on concrete locations. -/
abbrev Location.pipeFree (l : Location) : Prop :=
  l.stringPropertiesList.all
    (fun f =>
      match f with
      | none => true
      | some s => !(decide (Char.ofNat 124 ∈ s))) = true

theorem Location.pipeFree_spec (l : Location) (h : l.pipeFree) :
    ∀ f ∈ l.stringPropertiesList, ∀ s, f = some s → Char.ofNat 124 ∉ s := by
  intro f hf s hfs
  have hall := List.all_eq_true.mp h f hf
  subst hfs
  simpa using hall

theorem pipe_not_mem_wildcardIfNoneInt (x : Option Int) :
    Char.ofNat 124 ∉ wildcardIfNoneInt x := by
  cases x with
  | none => decide
  | some i => exact pipe_not_mem_pyIntRepr i

theorem reprComponents_length (l : Location) : l.reprComponents.length = 6 := rfl

theorem reprComponents_ne_nil (l : Location) : l.reprComponents ≠ [] := by
  intro h
  have := reprComponents_length l
  rw [h] at this
  exact absurd this (by decide)

theorem reprComponents_pipeFree (l : Location) (h : l.pipeFree) :
    ∀ p ∈ l.reprComponents, Char.ofNat 124 ∉ p := by
  intro p hp
  unfold Location.reprComponents at hp
  rcases List.mem_append.mp hp with hmem | hmem
  · rw [List.mem_map] at hmem
    obtain ⟨f, hf, rfl⟩ := hmem
    cases hfc : f with
    | none => decide
    | some s => exact Location.pipeFree_spec l h f hf s hfc
  · simp only [List.mem_singleton] at hmem
    subst hmem
    exact pipe_not_mem_wildcardIfNoneInt l.electorate

/-- Splitting the repr of a pipe-free location recovers its six rendered
components. -/
theorem splitOnChar_reprPy (l : Location) (h : l.pipeFree) :
    splitOnChar (Char.ofNat 124) l.reprPy = l.reprComponents :=
  splitOnChar_joinChar _ _ (reprComponents_ne_nil l) (reprComponents_pipeFree l h)

/-- Spec-side field test for claim C1 as written: a set string field of the
filter must find the record's field set and equal, case-insensitively. -/
def optFieldMatches (x y : Option PyStr) : Bool :=
  match x with
  | none => true
  | some s =>
    match y with
    | none => false
    | some t => pyLower s == pyLower t

/-- Spec-side field test for claim C1 as written, at the electorate field. -/
def intFieldMatches (x y : Option Int) : Bool :=
  match x with
  | none => true
  | some n => y == some n

/-- Claim C1's comparison, as written: all six fields participate. -/
def matchesSixFields (a b : Location) : Bool :=
  optFieldMatches a.ons_id b.ons_id &&
    optFieldMatches a.constituency b.constituency &&
    optFieldMatches a.county b.county &&
    optFieldMatches a.region b.region &&
    optFieldMatches a.country b.country &&
    intFieldMatches a.electorate b.electorate

/-- Spec-side field test for the amended claim: a set filter field is
compared case-insensitively against the record field as rendered in the
canonical encoding (unset renders as "*"). -/
def fieldMatchesRendered (x y : Option PyStr) : Bool :=
  match x with
  | none => true
  | some s => pyLower s == pyLower (wildcardIfNoneStr y)

/-- The amended claim C1's comparison: only the five string fields
participate; the electorate is ignored. -/
def matchesFiveStringFields (a b : Location) : Bool :=
  fieldMatchesRendered a.ons_id b.ons_id &&
    fieldMatchesRendered a.constituency b.constituency &&
    fieldMatchesRendered a.county b.county &&
    fieldMatchesRendered a.region b.region &&
    fieldMatchesRendered a.country b.country

/-- C1 (counterexample): compareGeneralTo is not the six-field comparison
the claim states.  A filter asking for electorate 5 matches a record with
electorate 7, because Location._contains_loc_as_raw_string compares only
the five string properties and, as its docstring says, ignores the
electorate attribute. -/
theorem ge_ignores_electorate :
    ¬ (Location.ge ⟨none, none, none, none, none, some 5⟩
          ⟨none, none, none, none, none, some 7⟩ = true ↔
        matchesSixFields ⟨none, none, none, none, none, some 5⟩
          ⟨none, none, none, none, none, some 7⟩ = true) := by
  decide

/-- C1 (amended): for locations whose string fields contain no "|", the
comparison A >= B holds iff, for each of the FIVE string fields
(ons_id, constituency, county, region, country) set in A, B's field as
rendered in the canonical encoding (unset as "*") equals A's field
case-insensitively; the electorate field is ignored. -/
theorem ge_iff_matchesFiveStringFields (a b : Location) (h : b.pipeFree) :
    Location.ge a b = matchesFiveStringFields a b := by
  unfold Location.ge Location.containsLocAsRawString
  rw [splitOnChar_reprPy b h]
  obtain ⟨a1, a2, a3, a4, a5, a6⟩ := a
  obtain ⟨b1, b2, b3, b4, b5, b6⟩ := b
  cases a1 <;> cases a2 <;> cases a3 <;> cases a4 <;> cases a5 <;>
    simp [Location.reprComponents, Location.stringPropertiesList, List.zip,
      matchesFiveStringFields, fieldMatchesRendered, Bool.and_assoc]

/-- C1 (witness): the amended equivalence applied at a concrete pair. -/
theorem ge_iff_matchesFiveStringFields_witness :
    Location.pipeFree ⟨some (py "S14000021"), none, none, none, some (py "Scotland"), some 7⟩ ∧
      Location.ge ⟨none, none, none, none, some (py "SCOTLAND"), some 5⟩
          ⟨some (py "S14000021"), none, none, none, some (py "Scotland"), some 7⟩ =
        matchesFiveStringFields ⟨none, none, none, none, some (py "SCOTLAND"), some 5⟩
          ⟨some (py "S14000021"), none, none, none, some (py "Scotland"), some 7⟩ :=
  ⟨by decide, ge_iff_matchesFiveStringFields _ _ (by decide)⟩

theorem wildcardIfNoneStr_roundtrip (x : Option PyStr) :
    wildcardIfNoneStr
        (if wildcardIfNoneStr x = [Char.ofNat 42] then none
         else some (wildcardIfNoneStr x)) =
      wildcardIfNoneStr x := by
  by_cases hx : wildcardIfNoneStr x = [Char.ofNat 42]
  · rw [if_pos hx, hx]
    rfl
  · rw [if_neg hx]
    rfl

/-- C3 (amended): for any location whose string fields contain no "|"
character, parsing the canonical encoding back yields a Location that is
equal to the original in the sense of Location.__eq__ (equal canonical
encodings). -/
theorem from_raw_string_reprPy (l : Location) (h : l.pipeFree) :
    (from_raw_string l.reprPy).map (fun m => m.pyEq l) = some true := by
  unfold from_raw_string
  rw [splitOnChar_reprPy l h]
  obtain ⟨a1, a2, a3, a4, a5, a6⟩ := l
  cases a6 with
  | none =>
    simp [Location.reprComponents, Location.stringPropertiesList,
      wildcardIfNoneInt, Location.pyEq, Location.reprPy,
      wildcardIfNoneStr_roundtrip]
  | some i =>
    simp [Location.reprComponents, Location.stringPropertiesList,
      wildcardIfNoneInt, Location.pyEq, Location.reprPy,
      pyIntRepr_ne_star, pyParseInt_pyIntRepr, wildcardIfNoneStr_roundtrip]

/-- C3 (counterexample): the round-trip law fails when a field contains the
delimiter.  A county of "x|7" shifts the split fields, and the re-encoded
location has six fields where the original encoding had seven. -/
theorem from_raw_string_reprPy_pipe_fails :
    ¬ ((from_raw_string
          (Location.reprPy ⟨none, none, some (py "x|7"), none, none, none⟩)).map
        (fun m => m.pyEq ⟨none, none, some (py "x|7"), none, none, none⟩) =
        some true) := by
  decide

/-- C3 (witness): the amended round trip applied to a fully populated
record location. -/
theorem from_raw_string_reprPy_witness :
    Location.pipeFree
        ⟨some (py "E14000530"), some (py "Aldershot"), some (py "Hampshire"),
          some (py "South East"), some (py "England"), some 72430⟩ ∧
      (from_raw_string
          (Location.reprPy
            ⟨some (py "E14000530"), some (py "Aldershot"), some (py "Hampshire"),
              some (py "South East"), some (py "England"), some 72430⟩)).map
        (fun m =>
          m.pyEq
            ⟨some (py "E14000530"), some (py "Aldershot"), some (py "Hampshire"),
              some (py "South East"), some (py "England"), some 72430⟩) =
        some true :=
  ⟨by decide, from_raw_string_reprPy _ (by decide)⟩

/-- C10: Location.__eq__ compares canonical encodings, Location.__hash__
hashes the canonical encoding (so equal encodings give equal hashes), and a
field holding the literal string "*" is indistinguishable from an unset
field: Location(ons_id="*") == Location(). -/
theorem location_eq_hash_by_encoding :
    (∀ a b : Location, a.pyEq b = true ↔ a.reprPy = b.reprPy) ∧
      (∀ a b : Location, a.reprPy = b.reprPy → a.pyHash = b.pyHash) ∧
      Location.pyEq ⟨some (py "*"), none, none, none, none, none⟩ locationWildcard =
        true := by
  refine ⟨fun a b => ?_, fun a b h => ?_, by decide⟩
  · simp [Location.pyEq]
  · unfold Location.pyHash
    rw [h]

/-- C10 (witness): the hash-agreement implication applied at the concrete
pair Location(ons_id="*") and Location(). -/
theorem location_eq_hash_by_encoding_witness :
    Location.reprPy ⟨some (py "*"), none, none, none, none, none⟩ =
        Location.reprPy locationWildcard ∧
      Location.pyHash ⟨some (py "*"), none, none, none, none, none⟩ =
        Location.pyHash locationWildcard :=
  ⟨by decide, location_eq_hash_by_encoding.2.1 _ _ (by decide)⟩

/-- Exceptions of the module (src/uk_politics/exceptions.py), together with
the Python built-in errors the code can raise (dict KeyError, ValueError
and IndexError from parsing). -/
inductive UKException where
  | PartyNicknameEmpty
  | PartyNameNotFound (needle : PyStr)
  | NoColorForThisParty (needle : PyStr)
  | DataLineUnreadable (offending_line : PyStr) (additional_context : PyStr)
  | KeyError (key : PyStr)
  | PyValueError
deriving DecidableEq

/-- External string-to-string tables (PARTY_NICKNAMES, PARTY_COLORS), as
insertion-ordered association lists with unique keys, loaded by the
data_tables collaborator. -/
abbrev Table := List (PyStr × PyStr)

/-- Python dict membership plus indexing, first binding wins. -/
def tableLookup (t : Table) (k : PyStr) : Option PyStr := List.lookup k t

/-- Python dict .keys() in insertion order. -/
def tableKeys (t : Table) : List PyStr := t.map (fun kv => kv.1)

/-- The fuzzywuzzy extractOne collaborator, abstracted: given a query and
the candidate keys it returns the best-matching candidate. -/
abbrev Matcher := PyStr → List PyStr → PyStr

/-- The normalization applied by names.official: nickname.lower().strip(). -/
def normalize (s : PyStr) : PyStr := pyStrip (pyLower s)

instance {e a : Type} [DecidableEq e] [DecidableEq a] :
    DecidableEq (Except e a) := fun x y =>
  match x, y with
  | .ok u, .ok v =>
    if h : u = v then isTrue (by rw [h]) else isFalse (by simp [h])
  | .error u, .error v =>
    if h : u = v then isTrue (by rw [h]) else isFalse (by simp [h])
  | .ok _, .error _ => isFalse (by simp)
  | .error _, .ok _ => isFalse (by simp)

/-- Result of one un-cached run of names.official: the returned value or
raised exception, plus whether the fuzzy-rename warning was emitted. -/
structure NameResult where
  result : Except UKException (Option PyStr)
  warned : Bool
deriving DecidableEq

/-- Body of names.official (src/uk_politics/names.py lines 70-94), before
the lru_cache wrapper.  A none nickname models the pandas missing-value
sentinel (None/NaN). -/
def official (table : Table) (matcher : Matcher) (nickname : Option PyStr)
    (allow_fuzzy_match warn_on_fuzzy_match exception_on_null_value : Bool) :
    NameResult :=
  match nickname with
  | none =>
    if exception_on_null_value then ⟨.error .PartyNicknameEmpty, false⟩
    else ⟨.ok none, false⟩
  | some raw =>
    let nickname := normalize raw
    if nickname.length = 0 then ⟨.error .PartyNicknameEmpty, false⟩
    else
      match tableLookup table nickname with
      | some officialName => ⟨.ok (some officialName), false⟩
      | none =>
        if allow_fuzzy_match then
          let fuzzyMatched := matcher nickname (tableKeys table)
          match tableLookup table fuzzyMatched with
          | some properName => ⟨.ok (some properName), warn_on_fuzzy_match⟩
          | none => ⟨.error (.KeyError fuzzyMatched), false⟩
        else ⟨.error (.PartyNameNotFound nickname), false⟩

/-- C5: names.official's input-validation contract.  A missing nickname
returns an empty result, or fails with PartyNicknameEmpty when
exception_on_null_value is set; a string that is empty after trimming
always fails with PartyNicknameEmpty, whatever the flags. -/
theorem official_empty_contract (table : Table) (matcher : Matcher)
    (a w e : Bool) :
    (official table matcher none a w e =
        ⟨if e then .error .PartyNicknameEmpty else .ok none, false⟩) ∧
      (∀ s : PyStr, pyStrip s = [] →
        official table matcher (some s) a w e =
          ⟨.error .PartyNicknameEmpty, false⟩) := by
  constructor
  · unfold official
    by_cases he : e
    · rw [if_pos he, if_pos he]
    · rw [if_neg he, if_neg he]
  · intro s hs
    have hn : normalize s = [] := pyStrip_pyLower_empty s hs
    simp [official, hn]

/-- C5 (witness): the whitespace-only nickname "  " fails with
PartyNicknameEmpty even with exception_on_null_value unset. -/
theorem official_empty_contract_witness :
    pyStrip (py "  ") = [] ∧
      official [] (fun q c => c.headD q) (some (py "  ")) true true false =
        ⟨.error .PartyNicknameEmpty, false⟩ :=
  ⟨by decide, (official_empty_contract [] (fun q c => c.headD q) true true false).2
    (py "  ") (by decide)⟩

/-- C6: a nickname whose trimmed case-folded form is a (nonempty) key of the
nickname table resolves to the mapped official name with no fuzzy step and
no warning, whatever the three flags and whatever the matcher. -/
theorem official_exact_hit (table : Table) (matcher : Matcher) (s : PyStr)
    (a w e : Bool) (v : PyStr) (hne : normalize s ≠ [])
    (hhit : tableLookup table (normalize s) = some v) :
    official table matcher (some s) a w e = ⟨.ok (some v), false⟩ := by
  have hlen : ¬ (normalize s).length = 0 := by
    intro h0
    exact hne (List.length_eq_zero.mp h0)
  simp only [official]
  rw [if_neg hlen, hhit]

/-- C6 (witness): an exact table hit, resolved with no warning, for the
nickname "Tory " (spaces and case folded away). -/
theorem official_exact_hit_witness :
    normalize (py "Tory ") ≠ [] ∧
      tableLookup [(py "tory", py "Conservative and Unionist Party")]
          (normalize (py "Tory ")) =
        some (py "Conservative and Unionist Party") ∧
      official [(py "tory", py "Conservative and Unionist Party")]
          (fun q c => c.headD q) (some (py "Tory ")) true true false =
        ⟨.ok (some (py "Conservative and Unionist Party")), false⟩ :=
  ⟨by decide, by decide,
    official_exact_hit _ (fun q c => c.headD q) _ true true false _
      (by decide) (by decide)⟩

/-- The function colors.by_official_party_name (src/uk_politics/colors.py):
an empty (None) name gives an empty result; otherwise a case-sensitive
lookup in the color table, warning when the looked-up name is the merged
historical "Green Party", and raising NoColorForThisParty on a miss.  The
second component records whether the warning was emitted. -/
def by_official_party_name (colorTable : Table) (party_name : Option PyStr) :
    Except UKException (Option PyStr) × Bool :=
  match party_name with
  | none => (.ok none, false)
  | some n =>
    match tableLookup colorTable n with
    | some c => (.ok (some c), n == py "Green Party")
    | none => (.error (.NoColorForThisParty n), false)

/-- C8: the three branches of the color lookup.  None in, empty result out;
a hit returns the stored hex color and warns exactly when the name is
"Green Party"; a miss fails with NoColorForThisParty and no warning. -/
theorem color_lookup_contract (t : Table) :
    (by_official_party_name t none = (.ok none, false)) ∧
      (∀ n c, tableLookup t n = some c →
        by_official_party_name t (some n) =
          (.ok (some c), decide (n = py "Green Party"))) ∧
      (∀ n, tableLookup t n = none →
        by_official_party_name t (some n) =
          (.error (.NoColorForThisParty n), false)) := by
  refine ⟨rfl, fun n c h => ?_, fun n h => ?_⟩
  · simp only [by_official_party_name]
    rw [h]
    by_cases hg : n = py "Green Party"
    · simp [hg]
    · simp [hg]
  · simp only [by_official_party_name]
    rw [h]

/-- C8 (witness): the hit and miss branches applied on a concrete color
table holding only the historical Green Party entry. -/
theorem color_lookup_contract_witness :
    tableLookup [(py "Green Party", py "#6AB023")] (py "Green Party") =
        some (py "#6AB023") ∧
      by_official_party_name [(py "Green Party", py "#6AB023")]
          (some (py "Green Party")) =
        (.ok (some (py "#6AB023")), decide (py "Green Party" = py "Green Party")) ∧
      tableLookup [(py "Green Party", py "#6AB023")] (py "Labour Party") = none ∧
      by_official_party_name [(py "Green Party", py "#6AB023")]
          (some (py "Labour Party")) =
        (.error (.NoColorForThisParty (py "Labour Party")), false) :=
  ⟨by decide,
    (color_lookup_contract [(py "Green Party", py "#6AB023")]).2.1 _ _ (by decide),
    by decide,
    (color_lookup_contract [(py "Green Party", py "#6AB023")]).2.2 _ (by decide)⟩

/-- Spec-side value of the color lookup, written with no reference to the
warning machinery: what the function returns, were the warning deleted. -/
def colorValueOnly (t : Table) (n : Option PyStr) :
    Except UKException (Option PyStr) :=
  match n with
  | none => .ok none
  | some n =>
    match tableLookup t n with
    | some c => .ok (some c)
    | none => .error (.NoColorForThisParty n)

/-- C9: warnings never alter returned values.  The value or exception of
names.official is the same with warn_on_fuzzy_match set or unset, and the
value of colors.by_official_party_name coincides with the warning-free
lookup. -/
theorem warnings_preserve_values :
    (∀ (table : Table) (matcher : Matcher) (s : Option PyStr) (a e : Bool),
        (official table matcher s a true e).result =
          (official table matcher s a false e).result) ∧
      (∀ (t : Table) (n : Option PyStr),
        (by_official_party_name t n).1 = colorValueOnly t n) := by
  constructor
  · intro table matcher s a e
    cases s with
    | none =>
      by_cases he : e <;> simp [official, he]
    | some raw =>
      simp only [official]
      by_cases hl : (normalize raw).length = 0
      · rw [if_pos hl, if_pos hl]
      · rw [if_neg hl, if_neg hl]
        cases tableLookup table (normalize raw) with
        | some v => rfl
        | none =>
          by_cases ha : a
          · simp only [if_pos ha]
            cases tableLookup table (matcher (normalize raw) (tableKeys table)) with
            | some v => rfl
            | none => rfl
          · simp only [if_neg ha]
  · intro t n
    cases n with
    | none => rfl
    | some n =>
      simp only [by_official_party_name, colorValueOnly]
      cases tableLookup t n with
      | some c => rfl
      | none => rfl

/-- Cache key of the lru_cache wrapper on names.official: the full argument
tuple (nickname, allow_fuzzy_match, warn_on_fuzzy_match,
exception_on_null_value). -/
abbrev CacheKey := Option PyStr × Bool × Bool × Bool

/-- Memoization cache of the lru_cache wrapper, most recently used first.
Only successful returns are stored (lru_cache does not cache exceptions). -/
abbrev Cache := List (CacheKey × Option PyStr)

/-- The default maxsize of a bare @functools.lru_cache decorator. -/
def CACHE_MAXSIZE : Nat := 128

/-- Lookup of a key in the cache. -/
def cacheFind (st : Cache) (k : CacheKey) : Option (Option PyStr) :=
  List.lookup k st

/-- Refresh the recency of a cached key. -/
def moveToFront (st : Cache) (k : CacheKey) : Cache :=
  match cacheFind st k with
  | none => st
  | some v => (k, v) :: st.filter (fun kv => !(kv.1 == k))

/-- Outcome of one call through the cache: the value returned or exception
raised, and whether the fuzzy-rename warning fired during this call. -/
structure CallOutcome where
  result : Except UKException (Option PyStr)
  warnedNow : Bool
deriving DecidableEq

/-- Modelled from the documented semantics of functools.lru_cache — the
bare decorator on names.official (src/uk_politics/names.py line 38), whose
default maxsize is 128.  A hit returns the stored value without running the
body (so no warning) and refreshes recency; a miss runs the body and stores
a successful value as most recent, dropping the least recently used entry
beyond CACHE_MAXSIZE; exceptions are not cached. -/
def officialCached (table : Table) (matcher : Matcher) (st : Cache)
    (k : CacheKey) : CallOutcome × Cache :=
  match cacheFind st k with
  | some v => (⟨.ok v, false⟩, moveToFront st k)
  | none =>
    let r := official table matcher k.1 k.2.1 k.2.2.1 k.2.2.2
    match r.result with
    | .ok v => (⟨.ok v, r.warned⟩, ((k, v) :: st).take CACHE_MAXSIZE)
    | .error ex => (⟨.error ex, r.warned⟩, st)

theorem officialCached_hit (table : Table) (matcher : Matcher) (st : Cache)
    (k : CacheKey) (v : Option PyStr) (h : cacheFind st k = some v) :
    officialCached table matcher st k = (⟨.ok v, false⟩, moveToFront st k) := by
  unfold officialCached
  rw [h]

theorem officialCached_miss (table : Table) (matcher : Matcher) (st : Cache)
    (k : CacheKey) (h : cacheFind st k = none) :
    officialCached table matcher st k =
      match (official table matcher k.1 k.2.1 k.2.2.1 k.2.2.2).result with
      | .ok v =>
        (⟨.ok v, (official table matcher k.1 k.2.1 k.2.2.1 k.2.2.2).warned⟩,
          ((k, v) :: st).take CACHE_MAXSIZE)
      | .error ex =>
        (⟨.error ex, (official table matcher k.1 k.2.1 k.2.2.1 k.2.2.2).warned⟩,
          st) := by
  unfold officialCached
  rw [h]

theorem cacheFind_cons_self (st : Cache) (k : CacheKey) (v : Option PyStr) :
    cacheFind ((k, v) :: st) k = some v := by
  simp [cacheFind, List.lookup]

theorem cacheFind_moveToFront (st : Cache) (k : CacheKey) (v : Option PyStr)
    (h : cacheFind st k = some v) : cacheFind (moveToFront st k) k = some v := by
  unfold moveToFront
  rw [h]
  exact cacheFind_cons_self _ k v

/-- Every branch of the body either does not warn or returns successfully
(the warning is only emitted on the fuzzy-hit path, which returns a name). -/
theorem official_warned_cases (table : Table) (matcher : Matcher)
    (n : Option PyStr) (a w e : Bool) :
    (official table matcher n a w e).warned = false ∨
      ∃ v, (official table matcher n a w e).result = Except.ok (some v) := by
  cases n with
  | none => by_cases he : e <;> simp [official, he]
  | some raw =>
    simp only [official]
    by_cases hl : (normalize raw).length = 0
    · simp [hl]
    · simp only [if_neg hl]
      cases tableLookup table (normalize raw) with
      | some v => simp
      | none =>
        by_cases ha : a
        · simp only [if_pos ha]
          cases tableLookup table (matcher (normalize raw) (tableKeys table)) with
          | some v => exact Or.inr ⟨v, rfl⟩
          | none => simp
        · simp [ha]

/-- C4 (amended): the memoization is an LRU cache of CACHE_MAXSIZE entries
keyed on the full argument tuple.  A call whose key is cached returns the
stored result without running the body (in particular without warning), and
an immediately repeated identical call always returns the same result with
no warning.  (The claim's whole-run at-most-once guarantee fails once more
than CACHE_MAXSIZE distinct keys intervene: see the counterexample.) -/
theorem officialCached_repeat (table : Table) (matcher : Matcher)
    (st : Cache) (k : CacheKey) :
    (∀ v, cacheFind st k = some v →
        officialCached table matcher st k = (⟨.ok v, false⟩, moveToFront st k)) ∧
      (officialCached table matcher (officialCached table matcher st k).2 k).1 =
        ⟨(officialCached table matcher st k).1.result, false⟩ := by
  constructor
  · intro v hv
    exact officialCached_hit table matcher st k v hv
  · cases hfind : cacheFind st k with
    | some v =>
      rw [officialCached_hit table matcher st k v hfind,
        officialCached_hit table matcher (moveToFront st k) k v
          (cacheFind_moveToFront st k v hfind)]
    | none =>
      rw [officialCached_miss table matcher st k hfind]
      cases hres : (official table matcher k.1 k.2.1 k.2.2.1 k.2.2.2).result with
      | ok v =>
        have hfind2 : cacheFind (((k, v) :: st).take CACHE_MAXSIZE) k = some v := by
          rw [show ((k, v) :: st).take CACHE_MAXSIZE = (k, v) :: st.take 127 from rfl]
          exact cacheFind_cons_self (st.take 127) k v
        rw [officialCached_hit table matcher _ k v hfind2]
      | error ex =>
        rw [officialCached_miss table matcher st k hfind, hres]
        rcases official_warned_cases table matcher k.1 k.2.1 k.2.2.1 k.2.2.2 with
          hw | ⟨v, hv⟩
        · rw [hw]
        · rw [hres] at hv
          exact absurd hv (by simp)

/-- C4 (witness): a cached key returns the stored result, applied at a
concrete one-entry cache. -/
theorem officialCached_repeat_witness :
    cacheFind [((some (py "tory"), true, true, false), some (py "Conservative"))]
        (some (py "tory"), true, true, false) = some (some (py "Conservative")) ∧
      officialCached [] (fun q c => c.headD q)
          [((some (py "tory"), true, true, false), some (py "Conservative"))]
          (some (py "tory"), true, true, false) =
        (⟨.ok (some (py "Conservative")), false⟩,
          moveToFront [((some (py "tory"), true, true, false), some (py "Conservative"))]
            (some (py "tory"), true, true, false)) :=
  ⟨by decide,
    (officialCached_repeat [] (fun q c => c.headD q)
        [((some (py "tory"), true, true, false), some (py "Conservative"))]
        (some (py "tory"), true, true, false)).1
      (some (py "Conservative")) (by decide)⟩

/-- Table for the eviction counterexample: one nickname key "x". -/
def lruDemoTable : Table := [(py "x", py "X")]

/-- Matcher for the eviction counterexample: pick the first candidate key
(as fuzzywuzzy would, every query being equidistant from the one key). -/
def lruDemoMatcher : Matcher := fun q cands => cands.headD q

/-- The i-th distinct cache key of the counterexample run: nickname "q?"
with a distinct second character, fuzzy matching and warnings on. -/
def lruKey (i : Nat) : CacheKey :=
  (some [Char.ofNat 113, Char.ofNat (161 + i)], true, true, false)

/-- Run a sequence of calls through the cache, keeping the final state. -/
def lruRun (ks : List CacheKey) (st : Cache) : Cache :=
  ks.foldl (fun st k => (officialCached lruDemoTable lruDemoMatcher st k).2) st

/-- C4 (counterexample): the fuzzy-rename warning fires twice for the same
argument tuple in one run.  The first call with lruKey 0 warns; after 128
distinct other keys the LRU cache (maxsize 128) has evicted it, and the
repeated call with lruKey 0 re-runs the fuzzy search and warns again —
refuting the claim that the warning can never fire on a second or later
call with the same key. -/
theorem lru_warning_refires :
    ((officialCached lruDemoTable lruDemoMatcher [] (lruKey 0)).1.warnedNow = true) ∧
      ((officialCached lruDemoTable lruDemoMatcher
          (lruRun ((List.range 128).map (fun i => lruKey (i + 1)))
            (officialCached lruDemoTable lruDemoMatcher [] (lruKey 0)).2)
          (lruKey 0)).1.warnedNow = true) := by
  constructor
  · decide
  · set_option maxRecDepth 10000 in decide

/-- Calendar dates (year, month, day), as compared by datetime.date. -/
abbrev Date := Nat × Nat × Nat

/-- Models datetime.datetime.strptime(s, "%Y-%m-%d").date(): three dash-
separated numeric fields with the month in 1..12 and the day in 1..31
(month-length and leap-year fine structure is not modelled; no claim
depends on it).  Failure, modelling ValueError, is none. -/
def parseDate (s : PyStr) : Option Date :=
  match splitOnChar (Char.ofNat 45) s with
  | [y, m, d] =>
    match parseNatDigits y, parseNatDigits m, parseNatDigits d with
    | some yn, some mn, some dn =>
      if 1 ≤ mn ∧ mn ≤ 12 ∧ 1 ≤ dn ∧ dn ≤ 31 then some (yn, mn, dn) else none
    | _, _, _ => none
  | _ => none

/-- Vote total for a single party / location / date combination
(src/uk_politics/elections.py). -/
structure VoteTotal where
  location : Location
  date : Date
  party : PyStr
  party_contemporary_styling : PyStr
  votes : Int
deriving DecidableEq

/-- The relabeling block of _vote_line_to_object (src/uk_politics/
elections.py lines 47-61): "PC/SNP" is split by country, "Green" is mapped
to the country-specific official party, and anything else is untouched. -/
def relabelStyling (country : Option PyStr) (label : PyStr) : PyStr :=
  if label = py "PC/SNP" then
    if country = some (py "Scotland") then py "SNP"
    else if country = some (py "Wales") then py "PC"
    else label
  else if label = py "Green" then
    if country = some (py "Scotland") then py "Scottish Green Party"
    else if country = some (py "Northern Ireland") then py "Green Party Northern Ireland"
    else py "Green Party of England and Wales"
  else label

/-- Tail of _vote_line_to_object (lines 66-75): fail with DataLineUnreadable
when resolution produced no name, otherwise build the VoteTotal, parsing
the date and the vote count.  Out-of-range line indices and unparsable
numbers, which raise builtin errors in Python, are modelled as
PyValueError. -/
def finishVote (line : List PyStr) (count_location : Location) (styled : PyStr)
    (party_official_name : Option PyStr) : Except UKException VoteTotal :=
  match party_official_name with
  | none =>
    .error (.DataLineUnreadable (joinChar (Char.ofNat 9) line)
      (py "party name could not be read"))
  | some pname =>
    match parseDate (line.getD 1 []), pyParseInt (line.getD 3 []) with
    | some d, some v => .ok ⟨count_location, d, pname, styled, v⟩
    | _, _ => .error .PyValueError

/-- The function _vote_line_to_object: parse the location, relabel the
as-recorded party, resolve it through names.official (the cache is
transparent to returned values, so the un-cached body stands in for it;
the call passes warn_on_fuzzy_match=True and leaves the other flags at
their defaults), then finish the record. -/
def voteLineToObject (table : Table) (matcher : Matcher) (line : List PyStr) :
    Except UKException VoteTotal :=
  match from_raw_string (line.getD 0 []) with
  | none => .error .PyValueError
  | some count_location =>
    let styled := relabelStyling count_location.country (line.getD 2 [])
    match (official table matcher (some styled) true true false).result with
    | .error ex => .error ex
    | .ok r => finishVote line count_location styled r

/-- C7: the ingestion relabeling rules.  "PC/SNP" becomes "SNP" in Scotland
and "PC" in Wales; "Green" becomes the Scottish, Northern Irish or
England-and-Wales official party by country; every other label passes
through unchanged; and when resolution yields no canonical name the line
fails with DataLineUnreadable. -/
theorem vote_line_relabel_contract :
    (∀ country : Option PyStr,
        relabelStyling country (py "PC/SNP") =
          (if country = some (py "Scotland") then py "SNP"
           else if country = some (py "Wales") then py "PC"
           else py "PC/SNP")) ∧
      (∀ country : Option PyStr,
        relabelStyling country (py "Green") =
          (if country = some (py "Scotland") then py "Scottish Green Party"
           else if country = some (py "Northern Ireland") then
             py "Green Party Northern Ireland"
           else py "Green Party of England and Wales")) ∧
      (∀ (country : Option PyStr) (label : PyStr),
        label ≠ py "PC/SNP" → label ≠ py "Green" →
          relabelStyling country label = label) ∧
      (∀ (line : List PyStr) (loc : Location) (styled : PyStr),
        finishVote line loc styled none =
          .error (.DataLineUnreadable (joinChar (Char.ofNat 9) line)
            (py "party name could not be read"))) := by
  refine ⟨fun country => ?_, fun country => ?_, fun country label h1 h2 => ?_,
    fun line loc styled => rfl⟩
  · rw [relabelStyling, if_pos rfl]
  · rw [relabelStyling, if_neg (by decide), if_pos rfl]
  · rw [relabelStyling, if_neg h1, if_neg h2]

/-- C7 (witness): the pass-through branch applied at the label "Labour",
together with concrete evaluations of the Scotland branches. -/
theorem vote_line_relabel_contract_witness :
    py "Labour" ≠ py "PC/SNP" ∧ py "Labour" ≠ py "Green" ∧
      relabelStyling (some (py "England")) (py "Labour") = py "Labour" ∧
      relabelStyling (some (py "Scotland")) (py "PC/SNP") =
        (if some (py "Scotland") = some (py "Scotland") then py "SNP"
         else if some (py "Scotland") = some (py "Wales") then py "PC"
         else py "PC/SNP") :=
  ⟨by decide, by decide,
    vote_line_relabel_contract.2.2.1 (some (py "England")) (py "Labour")
      (by decide) (by decide),
    vote_line_relabel_contract.1 (some (py "Scotland"))⟩

/-- Python == on Locations, as used by set membership and dict grouping in
seats (equality of canonical encodings, Location.__eq__). -/
def locBeq (a b : Location) : Bool := a.pyEq b

theorem locBeq_iff_repr (a b : Location) :
    locBeq a b = true ↔ a.reprPy = b.reprPy := by
  simp [locBeq, Location.pyEq]

theorem locBeq_refl (a : Location) : locBeq a a = true :=
  (locBeq_iff_repr a a).mpr rfl

/-- Location.__ge__ inspects only the canonical encoding of its right
operand, so it cannot distinguish ==-equal locations. -/
theorem ge_congr (f a b : Location) (h : a.reprPy = b.reprPy) :
    Location.ge f a = Location.ge f b := by
  unfold Location.ge
  rw [h]

/-- One overwrite step of the dict comprehension in seats: if the key is
present its value is replaced, otherwise the pair is appended. -/
def dictInsert (d : List (PyStr × Int)) (k : PyStr) (v : Int) :
    List (PyStr × Int) :=
  if d.any (fun kv => kv.1 == k) then
    d.map (fun kv => if kv.1 == k then (kv.1, v) else kv)
  else d ++ [(k, v)]

/-- The dict comprehension building party_counts, in iteration order. -/
def partyCountsFor (records : List VoteTotal) : List (PyStr × Int) :=
  records.foldl (fun d c => dictInsert d c.party c.votes) []

/-- Python max(d.keys(), key=lambda x: d[x]): the first key attaining the
maximal value (max keeps the incumbent on ties).  None on an empty dict,
where Python would raise ValueError. -/
def pyMaxByCounter (d : List (PyStr × Int)) : Option PyStr :=
  match d with
  | [] => none
  | x :: xs =>
    some ((xs.foldl (fun best kv => if kv.2 > best.2 then kv else best) x).1)

/-- The distinct locations, in first-occurrence order.  Python's set
iteration order is hash-dependent and unspecified; the claims treat the
seats output as a set of pairs, so any one order represents it. -/
def dedupLocs (ls : List Location) : List Location :=
  ls.foldl (fun acc l => if acc.any (fun m => locBeq m l) then acc else acc ++ [l]) []

/-- The list comprehension counts_for_this_date in seats: records passing
the location filter whose date is the requested date. -/
def countsForThisDate (counts : List VoteTotal) (lf : Location) (date : Date) :
    List VoteTotal :=
  counts.filter (fun c => Location.ge lf c.location && decide (c.date = date))

/-- The records grouped at one distinct location (the comprehension filter
count.location == loc inside the seats loop). -/
def groupAt (counts : List VoteTotal) (lf : Location) (date : Date)
    (loc : Location) : List VoteTotal :=
  (countsForThisDate counts lf date).filter (fun c => locBeq c.location loc)

/-- The function seats (src/uk_politics/elections.py lines 96-128): filter
the vote records by location filter and date, group them by exact record
location, and pick the party with the maximal vote count per location.
The filterMap skips an empty group, which cannot arise because every
grouped location comes from a record. -/
def seats (counts : List VoteTotal) (date : Date)
    (location_filter : Option Location) : List (Location × PyStr) :=
  let lf := location_filter.getD locationWildcard
  let locations := dedupLocs ((countsForThisDate counts lf date).map
    (fun c => c.location))
  locations.filterMap (fun loc =>
    (pyMaxByCounter (partyCountsFor (groupAt counts lf date loc))).map
      (fun w => (loc, w)))

theorem dedupLocs_aux_mono (xs : List Location) :
    ∀ acc a, a ∈ acc →
      a ∈ xs.foldl
        (fun acc l => if acc.any (fun m => locBeq m l) then acc else acc ++ [l])
        acc := by
  induction xs with
  | nil => intro acc a h; exact h
  | cons x rest ih =>
    intro acc a h
    simp only [List.foldl_cons]
    apply ih
    split
    · exact h
    · exact List.mem_append_left _ h

theorem dedupLocs_aux_subset (xs : List Location) :
    ∀ acc a,
      a ∈ xs.foldl
        (fun acc l => if acc.any (fun m => locBeq m l) then acc else acc ++ [l])
        acc →
      a ∈ acc ∨ a ∈ xs := by
  induction xs with
  | nil => intro acc a h; exact Or.inl h
  | cons x rest ih =>
    intro acc a h
    simp only [List.foldl_cons] at h
    rcases ih _ a h with hacc | hrest
    · by_cases hany : acc.any (fun m => locBeq m x) = true
      · rw [if_pos hany] at hacc
        exact Or.inl hacc
      · rw [if_neg hany] at hacc
        rcases List.mem_append.mp hacc with h1 | h1
        · exact Or.inl h1
        · simp only [List.mem_singleton] at h1
          subst h1
          exact Or.inr (List.mem_cons_self _ _)
    · exact Or.inr (List.mem_cons_of_mem _ hrest)

theorem dedupLocs_subset (xs : List Location) (a : Location)
    (h : a ∈ dedupLocs xs) : a ∈ xs := by
  rcases dedupLocs_aux_subset xs [] a h with h1 | h1
  · cases h1
  · exact h1

theorem dedupLocs_aux_covers (xs : List Location) :
    ∀ acc x, x ∈ xs →
      ∃ l ∈ xs.foldl
          (fun acc l => if acc.any (fun m => locBeq m l) then acc else acc ++ [l])
          acc,
        locBeq l x = true := by
  induction xs with
  | nil => intro acc x h; cases h
  | cons y rest ih =>
    intro acc x h
    simp only [List.foldl_cons]
    rcases List.mem_cons.mp h with rfl | hrest
    · by_cases hany : acc.any (fun m => locBeq m x) = true
      · obtain ⟨m, hm, hbeq⟩ := List.any_eq_true.mp hany
        refine ⟨m, ?_, hbeq⟩
        rw [if_pos hany]
        exact dedupLocs_aux_mono rest acc m hm
      · refine ⟨x, ?_, locBeq_refl x⟩
        rw [if_neg hany]
        exact dedupLocs_aux_mono rest _ x (List.mem_append_right _ (by simp))
    · exact ih _ x hrest

theorem dedupLocs_covers (xs : List Location) (x : Location) (h : x ∈ xs) :
    ∃ l ∈ dedupLocs xs, locBeq l x = true :=
  dedupLocs_aux_covers xs [] x h

theorem dedupLocs_aux_pairwise (xs : List Location) :
    ∀ acc, List.Pairwise (fun a b => locBeq a b = false) acc →
      List.Pairwise (fun a b => locBeq a b = false)
        (xs.foldl
          (fun acc l => if acc.any (fun m => locBeq m l) then acc else acc ++ [l])
          acc) := by
  induction xs with
  | nil => intro acc h; exact h
  | cons x rest ih =>
    intro acc h
    simp only [List.foldl_cons]
    apply ih
    by_cases hany : acc.any (fun m => locBeq m x) = true
    · rw [if_pos hany]
      exact h
    · rw [if_neg hany]
      rw [List.pairwise_append]
      refine ⟨h, List.pairwise_singleton _ _, fun a ha b hb => ?_⟩
      simp only [List.mem_singleton] at hb
      subst hb
      have := List.any_eq_false.mp (Bool.not_eq_true _ ▸ hany) a ha
      simpa using this

theorem dedupLocs_pairwise (xs : List Location) :
    List.Pairwise (fun a b => locBeq a b = false) (dedupLocs xs) :=
  dedupLocs_aux_pairwise xs [] List.Pairwise.nil

theorem dictInsert_fresh (d : List (PyStr × Int)) (k : PyStr) (v : Int)
    (h : ∀ kv ∈ d, kv.1 ≠ k) : dictInsert d k v = d ++ [(k, v)] := by
  unfold dictInsert
  rw [if_neg]
  intro hany
  obtain ⟨kv, hkv, hbeq⟩ := List.any_eq_true.mp hany
  exact h kv hkv (by simpa using hbeq)

/-- When the grouped records carry pairwise distinct parties (the dataset
invariant: one record per party, location and date), the dict comprehension
is just the list of (party, votes) pairs in iteration order. -/
theorem partyCountsFor_aux (L : List VoteTotal) :
    ∀ d0 : List (PyStr × Int),
      (∀ c ∈ L, ∀ kv ∈ d0, kv.1 ≠ c.party) →
      List.Pairwise (fun a b => a.party ≠ b.party) L →
      L.foldl (fun d c => dictInsert d c.party c.votes) d0 =
        d0 ++ L.map (fun c => (c.party, c.votes)) := by
  induction L with
  | nil => intro d0 hfresh hp; simp
  | cons c rest ih =>
    intro d0 hfresh hp
    simp only [List.foldl_cons, List.map_cons]
    rw [dictInsert_fresh d0 c.party c.votes
      (fun kv hkv => hfresh c (List.mem_cons_self _ _) kv hkv)]
    rw [ih (d0 ++ [(c.party, c.votes)]) ?_ (List.Pairwise.sublist
      (List.sublist_cons_self c rest) hp)]
    · simp
    · intro c2 hc2 kv hkv
      rcases List.mem_append.mp hkv with h1 | h1
      · exact hfresh c2 (List.mem_cons_of_mem _ hc2) kv h1
      · simp only [List.mem_singleton] at h1
        subst h1
        exact fun hq => (List.rel_of_pairwise_cons hp hc2) hq

theorem partyCountsFor_eq_map (L : List VoteTotal)
    (hp : List.Pairwise (fun a b => a.party ≠ b.party) L) :
    partyCountsFor L = L.map (fun c => (c.party, c.votes)) := by
  unfold partyCountsFor
  rw [partyCountsFor_aux L [] (fun c _ kv hkv => absurd hkv (List.not_mem_nil kv)) hp]
  simp

theorem foldl_maxStep_mem (xs : List (PyStr × Int)) :
    ∀ x : PyStr × Int,
      xs.foldl (fun best kv => if kv.2 > best.2 then kv else best) x ∈ x :: xs := by
  induction xs with
  | nil => intro x; simp
  | cons k ks ih =>
    intro x
    simp only [List.foldl_cons]
    rcases List.mem_cons.mp (ih (if k.2 > x.2 then k else x)) with h | h
    · rw [h]
      split
      · exact List.mem_cons_of_mem _ (List.mem_cons_self _ _)
      · exact List.mem_cons_self _ _
    · exact List.mem_cons_of_mem _ (List.mem_cons_of_mem _ h)

theorem foldl_maxStep_ge (xs : List (PyStr × Int)) :
    ∀ x : PyStr × Int, ∀ y ∈ x :: xs,
      y.2 ≤ (xs.foldl (fun best kv => if kv.2 > best.2 then kv else best) x).2 := by
  induction xs with
  | nil =>
    intro x y hy
    simp only [List.mem_singleton] at hy
    subst hy
    simp
  | cons k ks ih =>
    intro x y hy
    simp only [List.foldl_cons]
    have hstep : x.2 ≤ (if k.2 > x.2 then k else x).2 ∧
        k.2 ≤ (if k.2 > x.2 then k else x).2 := by
      split <;> constructor <;> omega
    rcases List.mem_cons.mp hy with rfl | hy2
    · exact le_trans hstep.1
        (ih _ _ (List.mem_cons_self _ _))
    · rcases List.mem_cons.mp hy2 with rfl | hy3
      · exact le_trans hstep.2 (ih _ _ (List.mem_cons_self _ _))
      · exact ih _ y (List.mem_cons_of_mem _ hy3)

/-- Python max over the counter keys returns a key of a maximal entry. -/
theorem pyMaxByCounter_spec (d : List (PyStr × Int)) (hne : d ≠ []) :
    ∃ kv ∈ d, pyMaxByCounter d = some kv.1 ∧ ∀ kv2 ∈ d, kv2.2 ≤ kv.2 := by
  cases d with
  | nil => exact absurd rfl hne
  | cons x xs =>
    refine ⟨xs.foldl (fun best kv => if kv.2 > best.2 then kv else best) x,
      foldl_maxStep_mem xs x, ?_, foldl_maxStep_ge xs x⟩
    rfl

theorem filterMap_all_some_length {α β : Type} (g : α → Option β) :
    ∀ ls : List α, (∀ l ∈ ls, (g l).isSome) →
      (ls.filterMap g).length = ls.length := by
  intro ls
  induction ls with
  | nil => intro h; rfl
  | cons x rest ih =>
    intro h
    have hx := h x (List.mem_cons_self _ _)
    cases hgx : g x with
    | none => rw [hgx] at hx; cases hx
    | some b =>
      rw [List.filterMap_cons, hgx]
      simp only [List.length_cons]
      rw [ih (fun l hl => h l (List.mem_cons_of_mem _ hl))]

theorem locBeq_trans_right (a b loc : Location)
    (ha : locBeq a loc = true) (hb : locBeq b loc = true) :
    locBeq a b = true := by
  rw [locBeq_iff_repr] at ha hb ⊢
  rw [ha, hb]

theorem mem_countsForThisDate (counts : List VoteTotal) (lf : Location)
    (date : Date) (c : VoteTotal) :
    c ∈ countsForThisDate counts lf date ↔
      c ∈ counts ∧ Location.ge lf c.location = true ∧ c.date = date := by
  unfold countsForThisDate
  rw [List.mem_filter]
  constructor
  · rintro ⟨h1, h2⟩
    have h2x : Location.ge lf c.location = true ∧ c.date = date := by
      simpa using h2
    exact ⟨h1, h2x.1, h2x.2⟩
  · rintro ⟨h1, h2, h3⟩
    refine ⟨h1, ?_⟩
    rw [h2]
    simpa using h3

theorem mem_groupAt (counts : List VoteTotal) (lf : Location) (date : Date)
    (loc : Location) (c : VoteTotal) :
    c ∈ groupAt counts lf date loc ↔
      c ∈ counts ∧ Location.ge lf c.location = true ∧ c.date = date ∧
        locBeq c.location loc = true := by
  unfold groupAt
  rw [List.mem_filter, mem_countsForThisDate]
  tauto

theorem groupAt_parties_pairwise (counts : List VoteTotal) (lf : Location)
    (date : Date) (loc : Location)
    (huniq : List.Pairwise (fun a b => a.date = b.date →
      locBeq a.location b.location = true → a.party ≠ b.party) counts) :
    List.Pairwise (fun a b => a.party ≠ b.party)
      (groupAt counts lf date loc) := by
  have hsub : List.Sublist (groupAt counts lf date loc) counts :=
    (List.filter_sublist _).trans (List.filter_sublist _)
  have hp := huniq.sublist hsub
  refine hp.imp_of_mem ?_
  intro a b ha hb hr
  obtain ⟨-, -, hda, hla⟩ := (mem_groupAt counts lf date loc a).mp ha
  obtain ⟨-, -, hdb, hlb⟩ := (mem_groupAt counts lf date loc b).mp hb
  exact hr (hda.trans hdb.symm) (locBeq_trans_right _ _ _ hla hlb)

/-- All the facts the main seats theorem needs about the winner of one
grouped location: it is the party of a record of that location and date
whose vote count is at least every other such record's count. -/
theorem seats_winner_spec (counts : List VoteTotal) (lf : Location)
    (date : Date) (loc : Location)
    (huniq : List.Pairwise (fun a b => a.date = b.date →
      locBeq a.location b.location = true → a.party ≠ b.party) counts)
    (hloc : loc ∈ dedupLocs ((countsForThisDate counts lf date).map
      (fun c => c.location))) :
    ∃ r ∈ counts, r.date = date ∧ locBeq r.location loc = true ∧
      (pyMaxByCounter (partyCountsFor (groupAt counts lf date loc))).map
          (fun w => (loc, w)) = some (loc, r.party) ∧
      ∀ r2 ∈ counts, r2.date = date → locBeq r2.location loc = true →
        r2.votes ≤ r.votes := by
  have hlocmem := dedupLocs_subset _ _ hloc
  obtain ⟨c0, hc0mem, hc0loc⟩ := List.mem_map.mp hlocmem
  obtain ⟨-, hc0ge, -⟩ := (mem_countsForThisDate counts lf date c0).mp hc0mem
  have hgeloc : Location.ge lf loc = true := by
    rw [← hc0loc]
    exact hc0ge
  have hc0grp : c0 ∈ groupAt counts lf date loc := by
    unfold groupAt
    rw [List.mem_filter]
    refine ⟨hc0mem, ?_⟩
    rw [hc0loc]
    exact locBeq_refl loc
  have hgrpne : groupAt counts lf date loc ≠ [] := List.ne_nil_of_mem hc0grp
  have hclosed : ∀ r2 ∈ counts, r2.date = date → locBeq r2.location loc = true →
      r2 ∈ groupAt counts lf date loc := by
    intro r2 hr2 hd2 hl2
    rw [mem_groupAt]
    refine ⟨hr2, ?_, hd2, hl2⟩
    rw [ge_congr lf r2.location loc ((locBeq_iff_repr _ _).mp hl2)]
    exact hgeloc
  have hpc : partyCountsFor (groupAt counts lf date loc) =
      (groupAt counts lf date loc).map (fun c => (c.party, c.votes)) :=
    partyCountsFor_eq_map _ (groupAt_parties_pairwise counts lf date loc huniq)
  have hpcne : partyCountsFor (groupAt counts lf date loc) ≠ [] := by
    rw [hpc]
    simp only [ne_eq, List.map_eq_nil_iff]
    exact hgrpne
  obtain ⟨kv, hkvmem, hmax, hbound⟩ := pyMaxByCounter_spec _ hpcne
  rw [hpc] at hkvmem
  obtain ⟨r, hrgrp, hrkv⟩ := List.mem_map.mp hkvmem
  obtain ⟨hrmem, -, hrdate, hrloc⟩ := (mem_groupAt counts lf date loc r).mp hrgrp
  refine ⟨r, hrmem, hrdate, hrloc, ?_, ?_⟩
  · rw [hmax, ← hrkv]
    rfl
  · intro r2 hr2 hd2 hl2
    have hr2grp := hclosed r2 hr2 hd2 hl2
    have : (r2.party, r2.votes) ∈ partyCountsFor (groupAt counts lf date loc) := by
      rw [hpc]
      exact List.mem_map.mpr ⟨r2, hr2grp, rfl⟩
    have hle := hbound _ this
    rw [← hrkv] at hle
    exact hle

/-- C2: for every date and location filter, under the dataset invariant
that no two records share a date, location and party, seats returns
exactly one (location, party) pair per distinct record location among the
records matching the date and the filter — its locations cover every
matching record's location and are pairwise distinct, and its length is
the number of distinct matching locations — and each returned party is the
party of a record at that location and date whose vote count is maximal
among all that location's records for that date. -/
theorem seats_spec (counts : List VoteTotal) (date : Date)
    (location_filter : Option Location)
    (huniq : List.Pairwise (fun a b => a.date = b.date →
      locBeq a.location b.location = true → a.party ≠ b.party) counts) :
    (∀ r ∈ counts, r.date = date →
        Location.ge (location_filter.getD locationWildcard) r.location = true →
        ∃ pr ∈ seats counts date location_filter, locBeq pr.1 r.location = true) ∧
      List.Pairwise (fun a b => locBeq a.1 b.1 = false)
        (seats counts date location_filter) ∧
      (seats counts date location_filter).length =
        (dedupLocs ((countsForThisDate counts
          (location_filter.getD locationWildcard) date).map
            (fun c => c.location))).length ∧
      (∀ pr ∈ seats counts date location_filter,
        ∃ r ∈ counts, r.date = date ∧ locBeq r.location pr.1 = true ∧
          r.party = pr.2 ∧
          ∀ r2 ∈ counts, r2.date = date → locBeq r2.location pr.1 = true →
            r2.votes ≤ r.votes) := by
  have hseats : seats counts date location_filter =
      (dedupLocs ((countsForThisDate counts
        (location_filter.getD locationWildcard) date).map
          (fun c => c.location))).filterMap
        (fun loc =>
          (pyMaxByCounter (partyCountsFor (groupAt counts
            (location_filter.getD locationWildcard) date loc))).map
            (fun w => (loc, w))) := rfl
  have hfun : ∀ (loc : Location) (pr : Location × PyStr),
      (pyMaxByCounter (partyCountsFor (groupAt counts
        (location_filter.getD locationWildcard) date loc))).map
        (fun w => (loc, w)) = some pr → pr.1 = loc := by
    intro loc pr hpr
    obtain ⟨w, -, hw2⟩ := Option.map_eq_some'.mp hpr
    rw [← hw2]
  refine ⟨?_, ?_, ?_, ?_⟩
  · intro r hr hdate hge
    have hrctd : r ∈ countsForThisDate counts
        (location_filter.getD locationWildcard) date :=
      (mem_countsForThisDate _ _ _ r).mpr ⟨hr, hge, hdate⟩
    obtain ⟨l, hl, hbeq⟩ := dedupLocs_covers _ r.location
      (List.mem_map.mpr ⟨r, hrctd, rfl⟩)
    obtain ⟨r0, -, -, -, hg, -⟩ := seats_winner_spec counts
      (location_filter.getD locationWildcard) date l huniq hl
    refine ⟨(l, r0.party), ?_, hbeq⟩
    rw [hseats]
    exact List.mem_filterMap.mpr ⟨l, hl, hg⟩
  · rw [hseats]
    rw [List.pairwise_filterMap]
    refine (dedupLocs_pairwise _).imp ?_
    intro a b hab x hx y hy
    rw [hfun a x hx, hfun b y hy]
    exact hab
  · rw [hseats]
    apply filterMap_all_some_length
    intro loc hloc
    obtain ⟨r0, -, -, -, hg, -⟩ := seats_winner_spec counts
      (location_filter.getD locationWildcard) date loc huniq hloc
    rw [hg]
    rfl
  · intro pr hpr
    rw [hseats] at hpr
    obtain ⟨loc, hloc, hg⟩ := List.mem_filterMap.mp hpr
    obtain ⟨r, hrmem, hrdate, hrloc, hg2, hmax⟩ := seats_winner_spec counts
      (location_filter.getD locationWildcard) date loc huniq hloc
    rw [hg2] at hg
    have hpr2 : pr = (loc, r.party) := by
      injection hg with h
      exact h.symm
    subst hpr2
    exact ⟨r, hrmem, hrdate, hrloc, rfl, hmax⟩

/-- Demo date for the seats witness. -/
def demoDate : Date := (2019, 12, 12)

/-- Demo constituency A. -/
def demoLocA : Location :=
  ⟨some (py "1"), some (py "Aaa"), none, none, some (py "England"), some 100⟩

/-- Demo constituency B. -/
def demoLocB : Location :=
  ⟨some (py "2"), some (py "Bbb"), none, none, some (py "Wales"), some 200⟩

/-- Demo vote records: two parties in A, one in B, all on one date. -/
def demoCounts : List VoteTotal :=
  [⟨demoLocA, demoDate, py "Labour Party", py "Lab", 10⟩,
    ⟨demoLocA, demoDate, py "Conservative and Unionist Party", py "Con", 20⟩,
    ⟨demoLocB, demoDate, py "Labour Party", py "Lab", 5⟩]

/-- C2 (witness): the seats specification applied to the demo dataset with
no location filter; its length equals the number of distinct locations. -/
theorem seats_spec_witness :
    List.Pairwise (fun a b => a.date = b.date →
        locBeq a.location b.location = true → a.party ≠ b.party) demoCounts ∧
      (seats demoCounts demoDate none).length =
        (dedupLocs ((countsForThisDate demoCounts
          ((none : Option Location).getD locationWildcard) demoDate).map
            (fun c => c.location))).length :=
  ⟨by decide, (seats_spec demoCounts demoDate none (by decide)).2.2.1⟩

end UkPolitics
